import Mathlib

/-!
Verification of the aggregation / estimation / classification core of
`New_app.py` (surface-hygiene detection app, two-image flow).

The Python dict holding per-class detection counts is embedded as an
insertion-ordered association list (`dictGet` / `dictSet` mirror
`d.get(k, 0)` and `d[k] = v`).  Label normalization (`.lower().strip()`)
is embedded over `List Char` using core `Char.toLower` (identical to
Python's lowering on the ASCII labels the model emits) and the
left/right whitespace drop of `str.strip()`.  The YOLO model itself is
the external inference adapter: each image is represented by the list of
class labels the model reports for it.
-/

namespace BacteriaDetection

/-- Python `dict` with string keys and integer values, as the insertion-ordered
association list of its entries (updates happen in place, new keys append). -/
abbrev CountMap := List (String × Nat)

/-- Python `d.get(k, 0)`: value at the key, defaulting to `0`. -/
def dictGet (m : CountMap) (k : String) : Nat :=
  match m.find? (fun p => p.1 == k) with
  | some p => p.2
  | none => 0

/-- Python `d[k] = v`: replace the entry in place if the key is present,
otherwise append a new entry. -/
def dictSet (m : CountMap) (k : String) (v : Nat) : CountMap :=
  if m.any (fun p => p.1 == k) then
    m.map (fun p => if p.1 == k then (k, v) else p)
  else
    m ++ [(k, v)]

/-- Python `sum(d.values())`. -/
def sumValues (m : CountMap) : Nat :=
  (m.map Prod.snd).sum

/-- The whitespace characters removed by Python `str.strip()`
(ASCII range: space, tab, newline, carriage return, vertical tab, form feed). -/
def isPySpace (c : Char) : Bool :=
  c == ' ' || c == '\t' || c == '\n' || c == '\r' ||
    c == Char.ofNat 11 || c == Char.ofNat 12

/-- Python `s.lower()` (on the ASCII labels produced by the model this is
exactly per-character ASCII lowering). -/
def pyLower (s : String) : String :=
  ⟨s.data.map Char.toLower⟩

/-- Removing leading then trailing whitespace from a character list, as
Python `str.strip()` does. -/
def stripChars (l : List Char) : List Char :=
  List.rdropWhile isPySpace (List.dropWhile isPySpace l)

/-- Python `s.strip()`. -/
def pyStrip (s : String) : String :=
  ⟨stripChars s.data⟩

/-- The label normalization applied in `run_yolo_and_get_counts`:
`results[0].names[int(cls_id)].lower().strip()`. -/
def normalizeLabel (s : String) : String :=
  pyStrip (pyLower s)

/-- One iteration of the counting loop in `run_yolo_and_get_counts`:
`label = names[int(cls_id)].lower().strip(); counts[label] = counts.get(label, 0) + 1`. -/
def countDetection (counts : CountMap) (rawLabel : String) : CountMap :=
  let label := normalizeLabel rawLabel
  dictSet counts label (dictGet counts label + 1)

/-- `run_yolo_and_get_counts(img_pil, model, conf_threshold)` as a function of
the class labels the model reports for the image (the model call itself is the
external inference adapter; `counts = {}` then the loop over detected classes). -/
def run_yolo_and_get_counts (labels : List String) : CountMap :=
  labels.foldl countDetection []

/-- The inner aggregation loop of the detection block:
`for k, v in d.items(): total_counts[k] = total_counts.get(k, 0) + v`. -/
def mergeInto (acc : CountMap) (d : CountMap) : CountMap :=
  d.foldl (fun t p => dictSet t p.1 (dictGet t p.1 + p.2)) acc

/-- `total_counts = {}; for d in (counts1, counts2): ...` — the aggregate
count map of the two images. -/
def total_counts (counts1 counts2 : CountMap) : CountMap :=
  mergeInto (mergeInto [] counts1) counts2

/-- The verdict header shown on the result card. -/
inductive Verdict where
  | Clean
  | BacterialContamination
  | ResidueDetected
deriving DecidableEq, Repr

/-- The result card rendered by the detection block: the verdict header and
which numeric metrics appear on the card (`none` = the metric is not shown).
`cfu` is the real-valued CFU/ml figure, kept unrounded; the Python float
constant `0.09` is modelled as the rational `9 / 100`. -/
structure ResultCard where
  verdict : Verdict
  bacteria_ml : Option Nat
  cfu : Option ℚ
  milk_ml : Option Nat
  debries_ml : Option Nat
deriving DecidableEq, Repr

/-- The classification block of `New_app.py` (lines 240-276): reads the
`bacteria`, `debries` and `milk_residues` counts (default `0`), then branches
on `sum(total_counts.values()) == 0`, `bacteria > 0`, and otherwise shows the
residue card with only the nonzero milk/debries metrics. -/
def detectionResult (tc : CountMap) : ResultCard :=
  let bacteria := dictGet tc "bacteria"
  let debries := dictGet tc "debries"
  let milk := dictGet tc "milk_residues"
  if sumValues tc = 0 then
    ⟨Verdict.Clean, none, none, none, none⟩
  else if bacteria > 0 then
    let bacteria_ml := bacteria * 1000
    let cfu : ℚ := (bacteria_ml : ℚ) * (9 / 100)
    ⟨Verdict.BacterialContamination, some bacteria_ml, some cfu, none, none⟩
  else
    ⟨Verdict.ResidueDetected, none, none,
      if milk > 0 then some (milk * 1000) else none,
      if debries > 0 then some (debries * 1000) else none⟩

/-- What the page shows below the uploader. -/
inductive UIOutcome where
  | result (card : ResultCard)
  | warnExactlyTwo
  | promptUpload
deriving DecidableEq, Repr

/-- The top-level detection block (lines 227-287): run the detection only for
`uploaded_files and len(uploaded_files) == 2`; warn on a nonempty upload of the
wrong size; prompt when nothing is uploaded.  Each uploaded image is
represented by the list of class labels the model detects in it. -/
def appFlow (uploaded_files : List (List String)) : UIOutcome :=
  match uploaded_files with
  | [img1, img2] =>
    let counts1 := run_yolo_and_get_counts img1
    let counts2 := run_yolo_and_get_counts img2
    UIOutcome.result (detectionResult (total_counts counts1 counts2))
  | [] => UIOutcome.promptUpload
  | _ => UIOutcome.warnExactlyTwo

/-- Modelled from the spec: the Contamination Estimator of the single-image
deployment (Policy A), whose source file is not under src/ (only the two-image
app `New_app.py` is): `organisms_per_volume = bacteria_count * 1000`;
`colony_forming_units_per_volume = round(organisms_per_volume / 3)` rounded to
the nearest integer; absent when the bacteria count is zero. -/
def estimatePolicyA (bacteria_count : Nat) : Option (Nat × ℚ) :=
  if bacteria_count = 0 then none
  else
    let organisms := bacteria_count * 1000
    some (organisms, ((round ((organisms : ℚ) / 3) : ℤ) : ℚ))

/-- The Contamination Estimator of the two-image deployment (Policy B), as in
lines 252-254 of `New_app.py`: `bacteria_ml = bacteria * 1000;
cfu = bacteria_ml * 0.09`, kept as a real number; absent when the bacteria
count is zero (no estimate is shown in the clean or residue branches). -/
def estimatePolicyB (bacteria_count : Nat) : Option (Nat × ℚ) :=
  if bacteria_count = 0 then none
  else
    let organisms := bacteria_count * 1000
    some (organisms, (organisms : ℚ) * (9 / 100))

/-- Modelled from the spec: the two deployments' estimation policies as a
tagged enumeration of selectable strategies. -/
inductive Policy where
  | A
  | B
deriving DecidableEq, Repr

/-- Modelled from the spec: the estimation strategy selected by policy. -/
def estimate : Policy → Nat → Option (Nat × ℚ)
  | Policy.A => estimatePolicyA
  | Policy.B => estimatePolicyB

/-! ### Lemmas about the dict model -/

theorem dictGet_nil (k : String) : dictGet [] k = 0 := rfl

theorem dictGet_cons (q : String × Nat) (t : CountMap) (k : String) :
    dictGet (q :: t) k = if q.1 = k then q.2 else dictGet t k := by
  by_cases h : q.1 = k
  · simp [dictGet, List.find?, beq_iff_eq.mpr h, h]
  · simp [dictGet, List.find?, beq_eq_false_iff_ne.mpr h, h]

theorem dictSet_cons_of_eq {q : String × Nat} {k : String} (h : q.1 = k)
    (t : CountMap) (v : Nat) :
    dictSet (q :: t) k v =
      (k, v) :: t.map (fun p => if p.1 == k then (k, v) else p) := by
  simp [dictSet, List.any_cons, h]

theorem dictSet_cons_of_ne {q : String × Nat} {k : String} (h : q.1 ≠ k)
    (t : CountMap) (v : Nat) :
    dictSet (q :: t) k v = q :: dictSet t k v := by
  by_cases ht : t.any (fun p => p.1 == k)
  · simp [dictSet, List.any_cons, h, ht]
  · simp [dictSet, List.any_cons, h, ht]

theorem dictGet_set_self (m : CountMap) (k : String) (v : Nat) :
    dictGet (dictSet m k v) k = v := by
  induction m with
  | nil => simp [dictSet, dictGet, List.find?]
  | cons q t ih =>
    by_cases h : q.1 = k
    · rw [dictSet_cons_of_eq h, dictGet_cons]; simp
    · rw [dictSet_cons_of_ne h, dictGet_cons, if_neg h]; exact ih

theorem dictGet_map_set_ne {k k' : String} (h : k ≠ k') (t : CountMap) (v : Nat) :
    dictGet (t.map (fun p => if p.1 == k then (k, v) else p)) k' = dictGet t k' := by
  induction t with
  | nil => rfl
  | cons q r ih =>
    simp only [List.map_cons]
    by_cases hq : q.1 = k
    · rw [if_pos (beq_iff_eq.mpr hq), dictGet_cons, dictGet_cons, if_neg h,
        if_neg (fun hc => h (hq.symm.trans hc))]
      exact ih
    · rw [if_neg (by simp [hq] : ¬((q.1 == k) = true)), dictGet_cons, dictGet_cons]
      by_cases hq' : q.1 = k'
      · rw [if_pos hq', if_pos hq']
      · rw [if_neg hq', if_neg hq']; exact ih

theorem dictGet_set_ne {k' k : String} (h : k' ≠ k) (m : CountMap) (v : Nat) :
    dictGet (dictSet m k v) k' = dictGet m k' := by
  induction m with
  | nil => simp [dictSet, dictGet, List.find?, beq_eq_false_iff_ne.mpr (Ne.symm h)]
  | cons q t ih =>
    by_cases hq : q.1 = k
    · rw [dictSet_cons_of_eq hq, dictGet_cons, if_neg (Ne.symm h), dictGet_cons,
        if_neg (fun hc => h (hq.symm.trans hc).symm)]
      exact dictGet_map_set_ne (Ne.symm h) t v
    · rw [dictSet_cons_of_ne hq, dictGet_cons, dictGet_cons]
      by_cases hq' : q.1 = k' <;> simp [hq', ih]

theorem dictGet_eq_zero_of_not_mem {m : CountMap} {k : String}
    (h : ∀ p ∈ m, p.1 ≠ k) : dictGet m k = 0 := by
  induction m with
  | nil => rfl
  | cons q t ih =>
    rw [dictGet_cons, if_neg (h q (List.mem_cons_self q t))]
    exact ih fun p hp => h p (List.mem_cons_of_mem q hp)

/-- Total value carried by a key across all entries of the list (for a
well-formed dict this is just `dictGet`). -/
def sumKey (m : CountMap) (k : String) : Nat :=
  (m.map (fun p => if p.1 = k then p.2 else 0)).sum

theorem sumKey_nil (k : String) : sumKey [] k = 0 := rfl

theorem sumKey_cons (q : String × Nat) (t : CountMap) (k : String) :
    sumKey (q :: t) k = (if q.1 = k then q.2 else 0) + sumKey t k := by
  simp [sumKey]

theorem sumKey_eq_zero_of_not_mem {m : CountMap} {k : String}
    (h : ∀ p ∈ m, p.1 ≠ k) : sumKey m k = 0 := by
  induction m with
  | nil => rfl
  | cons q t ih =>
    rw [sumKey_cons, if_neg (h q (List.mem_cons_self q t)),
      ih fun p hp => h p (List.mem_cons_of_mem q hp)]

/-- The keys of the association list are distinct: true of every map a Python
dict can denote, and preserved by every dict operation of the program. -/
def NodupKeys (m : CountMap) : Prop := (m.map Prod.fst).Nodup

theorem nodupKeys_nil : NodupKeys [] := List.nodup_nil

theorem nodupKeys_cons {q : String × Nat} {t : CountMap} (h : NodupKeys (q :: t)) :
    (∀ p ∈ t, p.1 ≠ q.1) ∧ NodupKeys t := by
  rw [NodupKeys, List.map_cons, List.nodup_cons] at h
  refine ⟨fun p hp hc => h.1 ?_, h.2⟩
  exact hc ▸ List.mem_map_of_mem Prod.fst hp

theorem sumKey_eq_dictGet {m : CountMap} (h : NodupKeys m) (k : String) :
    sumKey m k = dictGet m k := by
  induction m with
  | nil => rfl
  | cons q t ih =>
    obtain ⟨hq, ht⟩ := nodupKeys_cons h
    rw [sumKey_cons, dictGet_cons]
    by_cases hqk : q.1 = k
    · rw [if_pos hqk, if_pos hqk,
        sumKey_eq_zero_of_not_mem fun p hp => hqk ▸ hq p hp, Nat.add_zero]
    · rw [if_neg hqk, if_neg hqk, Nat.zero_add]
      exact ih ht

theorem nodupKeys_dictSet {m : CountMap} (h : NodupKeys m) (k : String) (v : Nat) :
    NodupKeys (dictSet m k v) := by
  rw [dictSet]
  by_cases hany : m.any (fun p => p.1 == k)
  · rw [if_pos hany]
    have hkeys : (m.map (fun p => if p.1 == k then (k, v) else p)).map Prod.fst
        = m.map Prod.fst := by
      rw [List.map_map]
      apply List.map_congr_left
      intro p _
      by_cases hp : p.1 = k
      · simp [Function.comp, beq_iff_eq.mpr hp, hp]
      · simp [Function.comp, beq_eq_false_iff_ne.mpr hp]
    rw [NodupKeys, hkeys]
    exact h
  · rw [if_neg hany]
    have hnot : k ∉ m.map Prod.fst := by
      intro hk
      obtain ⟨p, hp, hpk⟩ := List.mem_map.mp hk
      exact hany (List.any_eq_true.mpr ⟨p, hp, beq_iff_eq.mpr hpk⟩)
    rw [NodupKeys, List.map_append]
    simp only [List.map_cons, List.map_nil]
    rw [List.nodup_append]
    refine ⟨h, List.nodup_singleton k, ?_⟩
    intro a ha hb
    rw [List.mem_singleton] at hb
    exact hnot (hb ▸ ha)

theorem nodupKeys_mergeInto {acc : CountMap} (h : NodupKeys acc) (d : CountMap) :
    NodupKeys (mergeInto acc d) := by
  induction d generalizing acc with
  | nil => exact h
  | cons p r ih => exact ih (nodupKeys_dictSet h p.1 (dictGet acc p.1 + p.2))

theorem nodupKeys_foldl_count {acc : CountMap} (h : NodupKeys acc) (L : List String) :
    NodupKeys (L.foldl countDetection acc) := by
  induction L generalizing acc with
  | nil => exact h
  | cons l r ih =>
    exact ih (nodupKeys_dictSet h (normalizeLabel l) (dictGet acc (normalizeLabel l) + 1))

theorem nodupKeys_run (L : List String) : NodupKeys (run_yolo_and_get_counts L) :=
  nodupKeys_foldl_count nodupKeys_nil L

theorem nodupKeys_total (c1 c2 : CountMap) : NodupKeys (total_counts c1 c2) :=
  nodupKeys_mergeInto (nodupKeys_mergeInto nodupKeys_nil c1) c2

/-- Merging a dict into an accumulator adds, key-wise, everything the merged
dict carries at that key. -/
theorem dictGet_mergeInto (d acc : CountMap) (k : String) :
    dictGet (mergeInto acc d) k = dictGet acc k + sumKey d k := by
  induction d generalizing acc with
  | nil => simp [mergeInto, sumKey_nil]
  | cons p r ih =>
    have hstep : mergeInto acc (p :: r) =
        mergeInto (dictSet acc p.1 (dictGet acc p.1 + p.2)) r := rfl
    rw [hstep, ih, sumKey_cons]
    by_cases hp : p.1 = k
    · rw [if_pos hp, hp, dictGet_set_self]
      omega
    · rw [if_neg hp, dictGet_set_ne (Ne.symm hp)]
      omega

/-- Counting detections starting from an accumulator: the value at a key grows
by the number of detections whose normalized label is that key. -/
theorem dictGet_foldl_count (L : List String) (acc : CountMap) (k : String) :
    dictGet (L.foldl countDetection acc) k =
      dictGet acc k + L.countP (fun l => normalizeLabel l == k) := by
  induction L generalizing acc with
  | nil => simp
  | cons l r ih =>
    rw [List.foldl_cons, ih]
    simp only [countDetection]
    by_cases h : normalizeLabel l = k
    · rw [h, dictGet_set_self, List.countP_cons]
      simp [h]
      omega
    · rw [dictGet_set_ne (Ne.symm h), List.countP_cons]
      simp [h]

/-- The per-image count map: the value at a key is the number of detections
whose normalized label equals that key. -/
theorem dictGet_run (L : List String) (k : String) :
    dictGet (run_yolo_and_get_counts L) k =
      L.countP (fun l => normalizeLabel l == k) := by
  rw [run_yolo_and_get_counts, dictGet_foldl_count, dictGet_nil, Nat.zero_add]

theorem sumValues_nil : sumValues [] = 0 := rfl

theorem sumValues_cons (q : String × Nat) (t : CountMap) :
    sumValues (q :: t) = q.2 + sumValues t := by
  simp [sumValues]

theorem map_set_id {t : CountMap} {k : String} (v : Nat)
    (h : ∀ p ∈ t, p.1 ≠ k) :
    t.map (fun p => if p.1 == k then (k, v) else p) = t := by
  induction t with
  | nil => rfl
  | cons q r ih =>
    rw [List.map_cons,
      if_neg (by simp [h q (List.mem_cons_self q r)] : ¬((q.1 == k) = true)),
      ih fun p hp => h p (List.mem_cons_of_mem q hp)]

/-- Updating one key of a well-formed dict by adding `n` raises the total of
all values by `n`. -/
theorem sumValues_dictSet {m : CountMap} (h : NodupKeys m) (k : String) (n : Nat) :
    sumValues (dictSet m k (dictGet m k + n)) = sumValues m + n := by
  induction m with
  | nil => simp [dictSet, dictGet, sumValues, List.find?]
  | cons q t ih =>
    obtain ⟨hq, ht⟩ := nodupKeys_cons h
    by_cases hqk : q.1 = k
    · rw [dictSet_cons_of_eq hqk, dictGet_cons, if_pos hqk,
        map_set_id _ fun p hp => hqk ▸ hq p hp,
        sumValues_cons, sumValues_cons]
      omega
    · rw [dictSet_cons_of_ne hqk, dictGet_cons, if_neg hqk,
        sumValues_cons, sumValues_cons, ih ht]
      omega

/-- Each counted detection raises the total of the values by exactly one. -/
theorem sumValues_foldl_count (L : List String) {acc : CountMap}
    (h : NodupKeys acc) :
    sumValues (L.foldl countDetection acc) = sumValues acc + L.length := by
  induction L generalizing acc with
  | nil => simp
  | cons l r ih =>
    rw [List.foldl_cons]
    simp only [countDetection]
    rw [ih (nodupKeys_dictSet h (normalizeLabel l) _),
      sumValues_dictSet h (normalizeLabel l) 1, List.length_cons]
    omega

/-- The value at any single key never exceeds the total of all values. -/
theorem dictGet_le_sumValues (m : CountMap) (k : String) :
    dictGet m k ≤ sumValues m := by
  induction m with
  | nil => exact Nat.le_refl 0
  | cons q t ih =>
    rw [dictGet_cons, sumValues_cons]
    by_cases h : q.1 = k
    · rw [if_pos h]; exact Nat.le_add_right q.2 (sumValues t)
    · rw [if_neg h]; exact Nat.le_trans ih (Nat.le_add_left (sumValues t) q.2)

/-- The aggregate of two well-formed per-image count maps is their key-wise sum. -/
theorem dictGet_total_counts {c1 c2 : CountMap}
    (h1 : NodupKeys c1) (h2 : NodupKeys c2) (k : String) :
    dictGet (total_counts c1 c2) k = dictGet c1 k + dictGet c2 k := by
  rw [total_counts, dictGet_mergeInto, dictGet_mergeInto, dictGet_nil,
    Nat.zero_add, sumKey_eq_dictGet h1, sumKey_eq_dictGet h2]

/-- For a well-formed dict, the total of the values is the sum of `dictGet`
over the key set. -/
theorem sumValues_eq_sum {m : CountMap} (h : NodupKeys m) :
    sumValues m = ∑ k in (m.map Prod.fst).toFinset, dictGet m k := by
  induction m with
  | nil => simp [sumValues]
  | cons q t ih =>
    obtain ⟨hq, ht⟩ := nodupKeys_cons h
    have hnot : q.1 ∉ (t.map Prod.fst).toFinset := by
      rw [List.mem_toFinset]
      intro hc
      obtain ⟨p, hp, hpq⟩ := List.mem_map.mp hc
      exact hq p hp hpq
    rw [sumValues_cons, ih ht, List.map_cons, List.toFinset_cons,
      Finset.sum_insert hnot, dictGet_cons, if_pos rfl]
    congr 1
    apply Finset.sum_congr rfl
    intro k hk
    rw [dictGet_cons, if_neg]
    intro hc
    exact hnot (hc ▸ hk)

/-- Two well-formed dicts that agree as maps have the same total of values. -/
theorem sumValues_ext {m1 m2 : CountMap} (h1 : NodupKeys m1) (h2 : NodupKeys m2)
    (hget : ∀ k, dictGet m1 k = dictGet m2 k) : sumValues m1 = sumValues m2 := by
  have hzero : ∀ (m : CountMap) (k : String), k ∉ (m.map Prod.fst).toFinset →
      dictGet m k = 0 := by
    intro m k hk
    apply dictGet_eq_zero_of_not_mem
    intro p hp hc
    exact hk (List.mem_toFinset.mpr (hc ▸ List.mem_map_of_mem Prod.fst hp))
  rw [sumValues_eq_sum h1, sumValues_eq_sum h2]
  rw [Finset.sum_subset Finset.subset_union_left
    (fun x _ hx => hzero m1 x hx),
    Finset.sum_subset (Finset.subset_union_right :
      (m2.map Prod.fst).toFinset ⊆ (m1.map Prod.fst).toFinset ∪ (m2.map Prod.fst).toFinset)
    (fun x _ hx => hzero m2 x hx)]
  exact Finset.sum_congr rfl fun k _ => hget k

/-! ### Lemmas about label normalization -/

theorem toNat_ofNat_valid {n : Nat} (h : n < 55296) : (Char.ofNat n).toNat = n := by
  have hv : n.isValidChar := Or.inl h
  rw [Char.ofNat, dif_pos hv]
  rfl

theorem toLower_eq_of_upper {c : Char} (h : 65 ≤ c.toNat ∧ c.toNat ≤ 90) :
    Char.toLower c = Char.ofNat (c.toNat + 32) := by
  simp only [Char.toLower]
  exact if_pos ⟨h.1, h.2⟩

theorem toLower_eq_of_not_upper {c : Char} (h : ¬(65 ≤ c.toNat ∧ c.toNat ≤ 90)) :
    Char.toLower c = c := by
  simp only [Char.toLower]
  exact if_neg fun hc => h ⟨hc.1, hc.2⟩

/-- ASCII lowering is idempotent on every character. -/
theorem toLower_idem (c : Char) : Char.toLower (Char.toLower c) = Char.toLower c := by
  by_cases h : 65 ≤ c.toNat ∧ c.toNat ≤ 90
  · rw [toLower_eq_of_upper h]
    have hn : (Char.ofNat (c.toNat + 32)).toNat = c.toNat + 32 :=
      toNat_ofNat_valid (by omega)
    apply toLower_eq_of_not_upper
    rw [hn]
    omega
  · rw [toLower_eq_of_not_upper h, toLower_eq_of_not_upper h]

theorem mem_stripChars {c : Char} {l : List Char} (h : c ∈ stripChars l) : c ∈ l := by
  rw [stripChars] at h
  have hpre := List.rdropWhile_prefix isPySpace (List.dropWhile isPySpace l)
  have h1 : c ∈ List.dropWhile isPySpace l := hpre.sublist.subset h
  exact (List.dropWhile_suffix isPySpace).sublist.subset h1

/-- Stripping whitespace from both ends is idempotent. -/
theorem stripChars_idem (l : List Char) : stripChars (stripChars l) = stripChars l := by
  rw [stripChars, stripChars]
  rcases hr : List.rdropWhile isPySpace (List.dropWhile isPySpace l) with _ | ⟨a, r⟩
  · simp
  · have hpre := List.rdropWhile_prefix isPySpace (List.dropWhile isPySpace l)
    rw [hr] at hpre
    obtain ⟨t, ht⟩ := hpre
    have hd : List.dropWhile isPySpace l = a :: (r ++ t) := by
      rw [← ht]; rfl
    have hna : ¬(isPySpace a = true) := by
      have hh := List.head?_dropWhile_not isPySpace l
      rw [hd] at hh
      simp only [List.head?_cons] at hh
      simp [hh]
    rw [List.dropWhile_cons_of_neg hna, ← hr, List.rdropWhile_idempotent]

theorem map_eq_self_of_fix {α : Type} (f : α → α) (l : List α)
    (h : ∀ x ∈ l, f x = x) : l.map f = l := by
  induction l with
  | nil => rfl
  | cons a t ih =>
    rw [List.map_cons, h a (List.mem_cons_self a t),
      ih fun x hx => h x (List.mem_cons_of_mem a hx)]

/-- The label normalization of the app (`.lower().strip()`) is idempotent. -/
theorem normalizeLabel_idem (s : String) :
    normalizeLabel (normalizeLabel s) = normalizeLabel s := by
  have hmap : (stripChars (s.data.map Char.toLower)).map Char.toLower
      = stripChars (s.data.map Char.toLower) := by
    apply map_eq_self_of_fix
    intro x hx
    obtain ⟨a, _, ha⟩ := List.mem_map.mp (mem_stripChars hx)
    rw [← ha, toLower_idem]
  have h1 : normalizeLabel (normalizeLabel s) =
      String.mk (stripChars ((stripChars (s.data.map Char.toLower)).map Char.toLower)) := rfl
  rw [h1, hmap, stripChars_idem]
  rfl

/-- The total of all values also accumulates additively under merging. -/
theorem sumValues_mergeInto (d : CountMap) {acc : CountMap} (h : NodupKeys acc) :
    sumValues (mergeInto acc d) = sumValues acc + sumValues d := by
  induction d generalizing acc with
  | nil => simp [mergeInto, sumValues_nil]
  | cons p r ih =>
    have hstep : mergeInto acc (p :: r) =
        mergeInto (dictSet acc p.1 (dictGet acc p.1 + p.2)) r := rfl
    rw [hstep, ih (nodupKeys_dictSet h p.1 _), sumValues_dictSet h p.1 p.2,
      sumValues_cons]
    omega

/-! ### Claim theorems -/

/-- C1: the Verdict Classifier of the two-image flow (Policy 2) returns
`Clean` when the sum of counts over all classes is zero; otherwise, if the
bacteria count is positive, `BacterialContamination` regardless of the
magnitude of the milk or debris counts; otherwise `ResidueDetected` — the
three rules being evaluated in exactly this order. -/
theorem verdict_policy2_order (tc : CountMap) :
    (sumValues tc = 0 → (detectionResult tc).verdict = Verdict.Clean)
  ∧ (sumValues tc ≠ 0 → 0 < dictGet tc "bacteria" →
      (detectionResult tc).verdict = Verdict.BacterialContamination)
  ∧ (sumValues tc ≠ 0 → dictGet tc "bacteria" = 0 →
      (detectionResult tc).verdict = Verdict.ResidueDetected) := by
  refine ⟨fun h => ?_, fun h hb => ?_, fun h hb => ?_⟩
  · simp [detectionResult, h]
  · simp [detectionResult, h, hb]
  · simp [detectionResult, h, hb]

/-- Witness for C1: the three rules at concrete aggregated count maps. -/
theorem verdict_policy2_order_witness :
    (detectionResult []).verdict = Verdict.Clean
  ∧ (detectionResult [("bacteria", 2), ("milk_residues", 5)]).verdict =
      Verdict.BacterialContamination
  ∧ (detectionResult [("milk_residues", 3)]).verdict = Verdict.ResidueDetected :=
  ⟨(verdict_policy2_order []).1 (by decide),
   (verdict_policy2_order [("bacteria", 2), ("milk_residues", 5)]).2.1
     (by decide) (by decide),
   (verdict_policy2_order [("milk_residues", 3)]).2.2 (by decide) (by decide)⟩

/-- C2: with any number of uploaded images other than exactly two, no verdict
is produced and no classification runs: zero images prompt for an upload; a
nonzero number other than two warns that exactly two images are required. -/
theorem cardinality_guard (uploaded_files : List (List String))
    (h : uploaded_files.length ≠ 2) :
    (uploaded_files = [] → appFlow uploaded_files = UIOutcome.promptUpload)
  ∧ (uploaded_files ≠ [] → appFlow uploaded_files = UIOutcome.warnExactlyTwo)
  ∧ ∀ card, appFlow uploaded_files ≠ UIOutcome.result card := by
  match uploaded_files with
  | [] =>
    exact ⟨fun _ => rfl, fun hc => absurd rfl hc,
      fun card hc => UIOutcome.noConfusion hc⟩
  | [a] =>
    exact ⟨fun hc => List.noConfusion hc, fun _ => rfl,
      fun card hc => UIOutcome.noConfusion hc⟩
  | [a, b] => exact absurd rfl h
  | a :: b :: c :: t =>
    exact ⟨fun hc => List.noConfusion hc, fun _ => rfl,
      fun card hc => UIOutcome.noConfusion hc⟩

/-- Witness for C2: one image warns; no images prompt. -/
theorem cardinality_guard_witness :
    ([["bacteria"]] : List (List String)).length ≠ 2
  ∧ appFlow [["bacteria"]] = UIOutcome.warnExactlyTwo
  ∧ appFlow [] = UIOutcome.promptUpload :=
  ⟨by decide,
   (cardinality_guard [["bacteria"]] (by decide)).2.1 (by decide),
   (cardinality_guard [] (by decide)).1 rfl⟩

/-- C3: the Contamination Estimator of the two-image flow (Policy B): a zero
bacteria count shows no estimate; a positive count b shows
`organisms_per_volume = b * 1000` and `colony_forming_units_per_volume =
organisms_per_volume * 0.09`, the latter retained as an exact (unrounded)
rational — the two-decimal format code `cfu:.2f` in the page template is
presentation only; no rounding to an integer happens. -/
theorem estimator_two_image (tc : CountMap) :
    (dictGet tc "bacteria" = 0 →
      (detectionResult tc).bacteria_ml = none ∧ (detectionResult tc).cfu = none)
  ∧ (0 < dictGet tc "bacteria" →
      (detectionResult tc).bacteria_ml = some (dictGet tc "bacteria" * 1000)
    ∧ (detectionResult tc).cfu =
        some (((dictGet tc "bacteria" * 1000 : Nat) : ℚ) * (9 / 100))) := by
  constructor
  · intro h
    by_cases hs : sumValues tc = 0 <;> simp [detectionResult, hs, h]
  · intro h
    have hle := dictGet_le_sumValues tc "bacteria"
    have hs : sumValues tc ≠ 0 := by omega
    simp [detectionResult, hs, h]

/-- Witness for C3: bacteria count 2 gives 2000 organisms/ml and an exact
rational CFU of 2000 * 0.09; a bacteria-free map shows no estimate. -/
theorem estimator_two_image_witness :
    (detectionResult [("milk_residues", 3)]).cfu = none
  ∧ (detectionResult [("bacteria", 2), ("milk_residues", 5)]).bacteria_ml = some 2000
  ∧ (detectionResult [("bacteria", 2), ("milk_residues", 5)]).cfu =
      some (((2 * 1000 : Nat) : ℚ) * (9 / 100)) := by
  have h2 : dictGet [("bacteria", 2), ("milk_residues", 5)] "bacteria" = 2 := by
    decide
  refine ⟨((estimator_two_image [("milk_residues", 3)]).1 (by decide)).2, ?_, ?_⟩
  · have hb := ((estimator_two_image [("bacteria", 2), ("milk_residues", 5)]).2
      (by decide)).1
    rw [hb, h2]
  · have hc := ((estimator_two_image [("bacteria", 2), ("milk_residues", 5)]).2
      (by decide)).2
    rw [hc, h2]

/-- C4: both estimation policies are distinct selectable strategies; selecting
Policy A, every positive bacteria count b yields `organisms_per_volume =
b * 1000` and `colony_forming_units_per_volume = round(organisms_per_volume / 3)`
rounded to the nearest integer. -/
theorem policyA_selectable (b : Nat) (h : 0 < b) :
    estimate Policy.A b =
      some (b * 1000, ((round (((b * 1000 : Nat) : ℚ) / 3) : ℤ) : ℚ))
  ∧ estimate Policy.A 1 ≠ estimate Policy.B 1 := by
  constructor
  · simp [estimate, estimatePolicyA, Nat.pos_iff_ne_zero.mp h]
  · intro hc
    simp only [estimate, estimatePolicyA, estimatePolicyB] at hc
    norm_num [round_eq] at hc

/-- Witness for C4 at bacteria count 3. -/
theorem policyA_selectable_witness :
    (0 : Nat) < 3
  ∧ estimate Policy.A 3 =
      some (3 * 1000, ((round (((3 * 1000 : Nat) : ℚ) / 3) : ℤ) : ℚ)) :=
  ⟨by decide, (policyA_selectable 3 (by decide)).1⟩

/-- C5: aggregation over the two per-image count maps is additive (the
aggregate is the key-wise sum of the two maps) and commutative (swapping the
two images yields the same aggregate map). -/
theorem aggregation_additive_commutative (img1 img2 : List String) (k : String) :
    dictGet (total_counts (run_yolo_and_get_counts img1)
        (run_yolo_and_get_counts img2)) k
      = dictGet (run_yolo_and_get_counts img1) k
        + dictGet (run_yolo_and_get_counts img2) k
  ∧ dictGet (total_counts (run_yolo_and_get_counts img1)
        (run_yolo_and_get_counts img2)) k
      = dictGet (total_counts (run_yolo_and_get_counts img2)
        (run_yolo_and_get_counts img1)) k := by
  have h1 := nodupKeys_run img1
  have h2 := nodupKeys_run img2
  refine ⟨dictGet_total_counts h1 h2 k, ?_⟩
  rw [dictGet_total_counts h1 h2 k, dictGet_total_counts h2 h1 k]
  omega

/-- C6: every detection's class label is lower-cased and whitespace-trimmed
before counting (the count at a key is the number of detections normalizing
to it), the normalization is idempotent, and the labels "Bacteria ",
"bacteria" and "BACTERIA" all increment the same key. -/
theorem label_normalization :
    (∀ L k, dictGet (run_yolo_and_get_counts L) k
        = L.countP (fun l => normalizeLabel l == k))
  ∧ (∀ s, normalizeLabel (normalizeLabel s) = normalizeLabel s)
  ∧ normalizeLabel "Bacteria " = "bacteria"
  ∧ normalizeLabel "bacteria" = "bacteria"
  ∧ normalizeLabel "BACTERIA" = "bacteria"
  ∧ run_yolo_and_get_counts ["Bacteria ", "bacteria", "BACTERIA"]
      = [("bacteria", 3)] :=
  ⟨dictGet_run, normalizeLabel_idem, by decide, by decide, by decide, by decide⟩

/-- C7: the sum of the values of a CountMap equals the number of detections
counted into it — per image, and across the two-image aggregate — and an
empty detection sequence yields the empty (all-zero) map, not an error. -/
theorem countmap_sum_invariant (labels : List String) :
    sumValues (run_yolo_and_get_counts labels) = labels.length
  ∧ run_yolo_and_get_counts [] = ([] : CountMap)
  ∧ (∀ img1 img2 : List String,
      sumValues (total_counts (run_yolo_and_get_counts img1)
        (run_yolo_and_get_counts img2)) = img1.length + img2.length) := by
  have hrun : ∀ L : List String,
      sumValues (run_yolo_and_get_counts L) = L.length := by
    intro L
    rw [run_yolo_and_get_counts, sumValues_foldl_count L nodupKeys_nil,
      sumValues_nil, Nat.zero_add]
  refine ⟨hrun labels, rfl, fun img1 img2 => ?_⟩
  rw [total_counts, sumValues_mergeInto _ (nodupKeys_mergeInto nodupKeys_nil _),
    sumValues_mergeInto _ nodupKeys_nil, sumValues_nil, Nat.zero_add,
    hrun img1, hrun img2]

/-- C8: with zero bacteria and a nonzero milk and/or debris count the verdict
is `ResidueDetected`, and each of the milk and debris counts is reported
exactly when nonzero, scaled by 1000 for display. -/
theorem residue_branch_reporting (tc : CountMap)
    (hb : dictGet tc "bacteria" = 0)
    (hnz : 0 < dictGet tc "milk_residues" ∨ 0 < dictGet tc "debries") :
    (detectionResult tc).verdict = Verdict.ResidueDetected
  ∧ (detectionResult tc).milk_ml
      = (if 0 < dictGet tc "milk_residues"
          then some (dictGet tc "milk_residues" * 1000) else none)
  ∧ (detectionResult tc).debries_ml
      = (if 0 < dictGet tc "debries"
          then some (dictGet tc "debries" * 1000) else none) := by
  have hs : sumValues tc ≠ 0 := by
    rcases hnz with h | h
    · have := dictGet_le_sumValues tc "milk_residues"
      omega
    · have := dictGet_le_sumValues tc "debries"
      omega
  refine ⟨?_, ?_, ?_⟩ <;> simp [detectionResult, hs, hb]

/-- Witness for C8: counts (bacteria=0, milk=3, debris=0) give
`ResidueDetected` with milk displayed as 3000 and no debris metric. -/
theorem residue_branch_reporting_witness :
    (detectionResult [("milk_residues", 3)]).verdict = Verdict.ResidueDetected
  ∧ (detectionResult [("milk_residues", 3)]).milk_ml = some 3000
  ∧ (detectionResult [("milk_residues", 3)]).debries_ml = none := by
  have h := residue_branch_reporting [("milk_residues", 3)] (by decide)
    (Or.inl (by decide))
  refine ⟨h.1, ?_, ?_⟩
  · rw [h.2.1]; decide
  · rw [h.2.2]; decide

/-- C9: the classifier is a pure, stateless function of the count map's
contents: any two well-formed dicts that are equal as maps — as two runs on
the same CountMap produce, whatever their insertion order — classify to the
identical result card. -/
theorem classifier_deterministic_stateless (m1 m2 : CountMap)
    (h1 : NodupKeys m1) (h2 : NodupKeys m2)
    (hget : ∀ k, dictGet m1 k = dictGet m2 k) :
    detectionResult m1 = detectionResult m2 := by
  have hsum := sumValues_ext h1 h2 hget
  simp only [detectionResult, hget, hsum]

/-- Witness for C9: the same contents in two insertion orders classify
identically. -/
theorem classifier_deterministic_stateless_witness :
    detectionResult [("bacteria", 1), ("debries", 2)]
      = detectionResult [("debries", 2), ("bacteria", 1)] := by
  have h1 : NodupKeys [("bacteria", 1), ("debries", 2)] := by
    unfold NodupKeys
    decide
  have h2 : NodupKeys [("debries", 2), ("bacteria", 1)] := by
    unfold NodupKeys
    decide
  apply classifier_deterministic_stateless _ _ h1 h2
  intro k
  by_cases k1 : ("bacteria" : String) = k
  · subst k1
    decide
  · by_cases k2 : ("debries" : String) = k
    · subst k2
      decide
    · rw [dictGet_cons, dictGet_cons, dictGet_cons, dictGet_cons,
        if_neg k1, if_neg k2, if_neg k2, if_neg k1]

/-- C10: a nonzero total with zeros at the three keys the block reads — for
never reported because the debris metric reads the literal key "debries" —
yields the `ResidueDetected` card with no per-class metric displayed. -/
theorem unknown_label_residue (tc : CountMap)
    (hs : sumValues tc ≠ 0)
    (hb : dictGet tc "bacteria" = 0)
    (hm : dictGet tc "milk_residues" = 0)
    (hd : dictGet tc "debries" = 0) :
    detectionResult tc = ⟨Verdict.ResidueDetected, none, none, none, none⟩ := by
  simp [detectionResult, hs, hb, hm, hd]

/-- Witness for C10: two images each detecting one "debris"-labelled object
flow to a metric-free residue card. -/
theorem unknown_label_residue_witness :
    detectionResult (total_counts (run_yolo_and_get_counts ["debris"])
        (run_yolo_and_get_counts ["Debris "]))
      = ⟨Verdict.ResidueDetected, none, none, none, none⟩ :=
  unknown_label_residue _ (by decide) (by decide) (by decide) (by decide)

end BacteriaDetection
